import Mathlib

/-!
Verification of the Easel `esl_dsqdata` module (dsqdata: a pre-digitized
binary sequence database reader).

This file shallowly embeds the packing, unpacking, loading and reading logic
of `src/esl_dsqdata.c` in Lean and proves (or refutes) the documented
properties of that code.

Conventions of the embedding:
* C digital sequences `ESL_DSQ *dsq` are 1-indexed byte arrays; we model the
  residue array as a function `dsq : ℕ → ℕ` (positions 1..n carry residues)
  together with the explicit length `n`, exactly mirroring the C index
  arithmetic.
* 32-bit packets are natural numbers; every place the C code can overflow a
  `uint32_t` (the `v |= x << b` idiom) takes an explicit `% 2^32`.
* C loops are embedded as fuel-indexed recursions; the top-level wrappers
  supply fuel that is proved (or is evidently) sufficient, so the functions
  compute and the kernel can evaluate them on concrete inputs.
-/

namespace Dsqdata

/-- `eslDSQ_SENTINEL` from `easel.h` (external collaborator): the sentinel
residue code written before, between and after unpacked sequences. -/
def eslDSQ_SENTINEL : ℕ := 127

/-- The C idiom `v |= x << b` on a `uint32_t` accumulator: the shifted field
is truncated to 32 bits before being OR-ed in. -/
def orField (v x b : ℕ) : ℕ := v ||| ((x <<< b) % 4294967296)

/-- The six 5-bit slot values taken by `dsqdata_pack5` (and by the 5-bit
branch of `dsqdata_pack2`) for the packet starting at residue position `r`:
residues `dsq[r..]` while `r ≤ n` (first inner `for` loop), then padding
code 31 in the remaining slots (second inner `for` loop). -/
def pack5_slots (dsq : ℕ → ℕ) (n r : ℕ) : List ℕ :=
  (List.range 6).map (fun k => if r + k ≤ n then dsq (r + k) else 31)

/-- Build one 5-bit packet: initialize `v = 1 << 30` (5-bit flag), OR in the
six slot values at bitshifts 25,20,15,10,5,0, and OR in the EOD bit
(`v |= 1 << 31`) when this packet consumed the final residue. -/
def packet5 (eod : Bool) (slots : List ℕ) : ℕ :=
  let v := (slots.zip [25, 20, 15, 10, 5, 0]).foldl
    (fun v xb => orField v xb.1 xb.2) (1 <<< 30)
  if eod then orField v 1 31 else v

/-- Build one full 2-bit packet from residues `dsq[r..r+14]` at bitshifts
28,26,...,2,0 (the accumulator starts at 0: bits 30 and 29 stay clear), with
the EOD bit OR-ed in when the packet consumed the final residue. -/
def packet2 (eod : Bool) (dsq : ℕ → ℕ) (r : ℕ) : ℕ :=
  let v := (List.range 15).foldl (fun v k => orField v (dsq (r + k)) (28 - 2 * k)) 0
  if eod then orField v 1 31 else v

/-- The `while (r <= n)` loop of `dsqdata_pack5`.  Each iteration emits one
5-bit packet for residues `r..min (r+5) n` and advances `r` by 6 (the C code
leaves `r` at `min (r+6) (n+1)`; since the loop guard is `r ≤ n`, advancing
by 6 yields the same iterations).  The EOD bit is set when `r > n` after the
packet, i.e. when `n < r + 6`. -/
def pack5_loop (dsq : ℕ → ℕ) (n : ℕ) : ℕ → ℕ → List ℕ
  | 0, _ => []
  | fuel + 1, r =>
    if r ≤ n then
      packet5 (decide (n < r + 6)) (pack5_slots dsq n r) :: pack5_loop dsq n fuel (r + 6)
    else []

/-- `dsqdata_pack5(dsq, n)`: pack a protein digital sequence into 5-bit
packets.  Returns the packet list (the C function also returns its length,
`plen`, which is just `List.length` here). -/
def dsqdata_pack5 (dsq : ℕ → ℕ) (n : ℕ) : List ℕ :=
  pack5_loop dsq n (n + 1) 1

/-- The degenerate-residue detector of `dsqdata_pack2`:
`for (d = r; d <= n; d++) if (dsq[d] > 3) break;` starting from position
`start`; yields the first position `≥ start` carrying a residue code `> 3`,
or `n + 1` if there is none. -/
def nextDegen (dsq : ℕ → ℕ) (n : ℕ) : ℕ → ℕ → ℕ
  | 0, d => d
  | fuel + 1, d => if d ≤ n then (if 3 < dsq d then d else nextDegen dsq n fuel (d + 1)) else d

/-- The `while (r <= n)` loop of `dsqdata_pack2`, carrying the cursor `r` and
the degenerate-residue window `d` (recomputed whenever `d < r`).  If at least
15 residues remain (`n - r + 1 >= 15`) and the next degenerate position lies
beyond them (`d > r + 14`), emit a full 2-bit packet for `r..r+14`; else emit
a 5-bit packet for up to six residues exactly as in `pack5`.  The EOD bit is
set on the packet that consumes residue `n`. -/
def pack2_loop (dsq : ℕ → ℕ) (n : ℕ) : ℕ → ℕ → ℕ → List ℕ
  | 0, _, _ => []
  | fuel + 1, r, d =>
    if r ≤ n then
      let d' := if d < r then nextDegen dsq n (n + 1) r else d
      if 15 ≤ n - r + 1 ∧ r + 14 < d' then
        packet2 (decide (n < r + 15)) dsq r :: pack2_loop dsq n fuel (r + 15) d'
      else
        packet5 (decide (n < r + 6)) (pack5_slots dsq n r) :: pack2_loop dsq n fuel (r + 6) d'
    else []

/-- `dsqdata_pack2(dsq, n)`: pack a nucleotide digital sequence into a mix of
2-bit and 5-bit packets.  `d` starts at 0 (`< r = 1`), so the detector runs
before the first packet. -/
def dsqdata_pack2 (dsq : ℕ → ℕ) (n : ℕ) : List ℕ :=
  pack2_loop dsq n (n + 1) 1 0

/-- The residue list `dsq[1..n]` as a Lean list. -/
def resList (dsq : ℕ → ℕ) (n : ℕ) : List ℕ :=
  (List.range n).map (fun k => dsq (k + 1))

/-- The reader's decoding of the six 5-bit slots of a packet `v`
(case `1` of the `switch` in `dsqdata_unpack_chunk`). -/
def slots5 (v : ℕ) : List ℕ :=
  [(v >>> 25) &&& 31, (v >>> 20) &&& 31, (v >>> 15) &&& 31,
   (v >>> 10) &&& 31, (v >>> 5) &&& 31, (v >>> 0) &&& 31]

/-- The residues still to be packed when the cursor is at `r`:
`dsq[r..n]`. -/
def sufList (dsq : ℕ → ℕ) (n r : ℕ) : List ℕ :=
  (List.range (n + 1 - r)).map (fun k => dsq (r + k))

/-- Build a 2-bit packet from an explicit list of fifteen residues (the
layout of `packet2`, driven by a list instead of the cursor). -/
def packet2L (eod : Bool) (xs : List ℕ) : ℕ :=
  let v := (xs.zip [28, 26, 24, 22, 20, 18, 16, 14, 12, 10, 8, 6, 4, 2, 0]).foldl
    (fun v xb => orField v xb.1 xb.2) 0
  if eod then orField v 1 31 else v

/-- Modelled from the claim (spec §4.1 `pack2`): the packet-emission rule.
At each step, with the residues not yet consumed as the argument list: if at
least 15 residues remain and none of the next 15 has a code greater than 3,
emit a full 2-bit packet consuming 15 residues; otherwise emit a 5-bit packet
consuming up to 6 residues, padded with code 31 if fewer remain.  Bit 31 is
set on a packet exactly when it consumes the last residue. -/
def pack2_rule : List ℕ → List ℕ
  | [] => []
  | x :: rest =>
    if 15 ≤ (x :: rest).length ∧ (∀ y ∈ (x :: rest).take 15, y ≤ 3) then
      packet2L (decide ((x :: rest).length ≤ 15)) ((x :: rest).take 15) ::
        pack2_rule ((x :: rest).drop 15)
    else
      packet5 (decide ((x :: rest).length ≤ 6))
          ((x :: rest).take 6 ++ List.replicate (6 - (x :: rest).length) 31) ::
        pack2_rule ((x :: rest).drop 6)
termination_by l => l.length
decreasing_by
  all_goals (simp [List.length_drop]; omega)


/-- The reader's decoding of the fifteen 2-bit residues of a packet `v`
(cases `0` and `2` of the `switch` in `dsqdata_unpack_chunk`). -/
def res2 (v : ℕ) : List ℕ :=
  [(v >>> 28) &&& 3, (v >>> 26) &&& 3, (v >>> 24) &&& 3, (v >>> 22) &&& 3, (v >>> 20) &&& 3,
   (v >>> 18) &&& 3, (v >>> 16) &&& 3, (v >>> 14) &&& 3, (v >>> 12) &&& 3, (v >>> 10) &&& 3,
   (v >>> 8) &&& 3, (v >>> 6) &&& 3, (v >>> 4) &&& 3, (v >>> 2) &&& 3, v &&& 3]

/-- Residues decoded from a 5-bit EOD packet (case `3`): 5-bit groups left to
right until code 31 is met or all six slots are consumed. -/
def eodRes5 (v : ℕ) : List ℕ :=
  (slots5 v).takeWhile (fun x => decide (x ≠ 31))

/-- A packet finalizes the current sequence when its top two control bits are
`10` (2-bit EOD) or `11` (5-bit EOD). -/
def isEOD (v : ℕ) : Bool :=
  decide (v >>> 30 = 2) || decide (v >>> 30 = 3)

/-- The residues one packet appends to the arena, by the `switch` dispatch on
the top two bits.  A value `≥ 4` for `v >>> 30` cannot arise from a
`uint32_t`; like the C `switch` with no matching case, it appends nothing. -/
def packetResidues (v : ℕ) : List ℕ :=
  match v >>> 30 with
  | 0 => res2 v
  | 1 => slots5 v
  | 2 => res2 v
  | 3 => eodRes5 v
  | _ => []

/-- The state of the residue-decoding loop of `dsqdata_unpack_chunk`.
`arena` is the prefix of `smem` written so far (the C write cursor `r` always
equals `arena.length`); `i` is the current sequence index; `Lw` and `dsqw`
record every store to the per-sequence arrays `chu->L` (values) and
`chu->dsq` (arena offsets), in program order. -/
@[ext]
structure UState where
  arena : List ℕ
  i : ℕ
  Lw : List (ℕ × ℤ)
  dsqw : List (ℕ × ℕ)
deriving DecidableEq

/-- Reading `chu->dsq[i]` back: the last offset stored at index `i`.  The
default 0 stands for an uninitialized C read (its value is never relied on
by any theorem below). -/
def dsqLookup (w : List (ℕ × ℕ)) (i : ℕ) : ℕ :=
  ((w.reverse.find? (fun p => p.1 == i)).map Prod.snd).getD 0

/-- Sequence finalization on an EOD packet: store
`L[i] = &dsq[r] − chu->dsq[i] − 1`, advance `i`, store `dsq[i]` for the next
sequence only if `i < N`, then write the inter-sequence sentinel. -/
def finalizeSeq (N : ℕ) (s : UState) : UState :=
  let L' := s.Lw ++ [(s.i, (s.arena.length : ℤ) - (dsqLookup s.dsqw s.i : ℤ) - 1)]
  let i' := s.i + 1
  let d' := if i' < N then s.dsqw ++ [(i', s.arena.length)] else s.dsqw
  { arena := s.arena ++ [eslDSQ_SENTINEL], i := i', Lw := L', dsqw := d' }

/-- One iteration of the packet loop: dispatch on the two control bits. -/
def unpackStep (N : ℕ) (s : UState) (v : ℕ) : UState :=
  match v >>> 30 with
  | 0 => { s with arena := s.arena ++ res2 v }
  | 1 => { s with arena := s.arena ++ slots5 v }
  | 2 => finalizeSeq N { s with arena := s.arena ++ res2 v }
  | 3 => finalizeSeq N { s with arena := s.arena ++ eodRes5 v }
  | _ => s

/-- The state just before the packet loop: `chu->dsq[0] = smem` (offset 0),
then the leading sentinel is written at offset 0 (`dsq[r++]`, `r = 0`). -/
def unpackInit : UState :=
  { arena := [eslDSQ_SENTINEL], i := 0, Lw := [], dsqw := [(0, 0)] }

/-- The whole residue-decoding loop over the chunk's packets. -/
def unpackSeqs (N : ℕ) (psq : List ℕ) : UState :=
  psq.foldl (unpackStep N) unpackInit

/-- Number of EOD packets in a packet stream. -/
def eodCount (psq : List ℕ) : ℕ :=
  psq.countP isEOD

/-- A well-formed packet segment for one sequence: the non-EOD packets
followed by the single EOD packet. -/
def segPackets (sp : List ℕ × ℕ) : List ℕ := sp.1 ++ [sp.2]

/-- The residues a segment decodes to. -/
def segResidues (sp : List ℕ × ℕ) : List ℕ :=
  ((segPackets sp).map packetResidues).flatten

/-- The arena bytes written by a list of segments: each segment's residues
followed by the sentinel that terminates it (and leads the next one). -/
def arenaSpec : List (List ℕ × ℕ) → List ℕ
  | [] => []
  | sp :: rest => segResidues sp ++ [eslDSQ_SENTINEL] ++ arenaSpec rest

/-- The stores into `chu->L` made by a list of segments when the first one
carries sequence index `done`: one store per segment, of its residue
count. -/
def LwSpec (done : ℕ) : List (List ℕ × ℕ) → List (ℕ × ℤ)
  | [] => []
  | sp :: rest => (done, ((segResidues sp).length : ℤ)) :: LwSpec (done + 1) rest

/-- The stores into `chu->dsq` made by a list of segments: after the segment
of sequence `done`, whose residues start when the arena holds `A` bytes, the
next sequence's start `A + len` is recorded — only if its index is below
`N`. -/
def dsqwSpec (N : ℕ) : ℕ → ℕ → List (List ℕ × ℕ) → List (ℕ × ℕ)
  | _, _, [] => []
  | done, A, sp :: rest =>
    (if done + 1 < N then [(done + 1, A + (segResidues sp).length)] else []) ++
      dsqwSpec N (done + 1) (A + (segResidues sp).length + 1) rest

/-- `strchr(ptr, 0)` over a modeled memory region: the index of the first
zero byte at or after `p` (`mem.length` if the region holds none — in C the
scan would continue beyond the modeled region). -/
def strchr0 (mem : List ℕ) (p : ℕ) : ℕ :=
  p + (mem.drop p).findIdx (fun b => b == 0)

/-- The 32-bit little-endian taxonomy id read at byte offset `p`
(`*((int32_t *) ptr)`; the bit pattern as an unsigned value). -/
def taxidAt (mem : List ℕ) (p : ℕ) : ℕ :=
  mem.getD p 0 + 256 * mem.getD (p + 1) 0 + 65536 * mem.getD (p + 2) 0 +
    16777216 * mem.getD (p + 3) 0

/-- Byte offsets (into the chunk's metadata buffer) of one sequence's
metadata, plus its decoded taxonomy id. -/
structure MetaRec where
  nameOff : ℕ
  accOff : ℕ
  descOff : ℕ
  taxid : ℕ
deriving DecidableEq

/-- The metadata loop of `dsqdata_unpack_chunk`: for each of the remaining
`count` sequences, check `ptr < metadata + mdalloc`, record the name
pointer, skip past its terminator, and likewise for accession and
description; then read the 4-byte taxonomy id.  Every bound check compares
against `mdalloc`, the allocation size. -/
def metaWalk (mem : List ℕ) (mdalloc : ℕ) : ℕ → ℕ → Except Unit (List MetaRec)
  | 0, _ => .ok []
  | count + 1, ptr =>
    if mdalloc ≤ ptr then .error () else
    let p1 := strchr0 mem ptr + 1
    if mdalloc ≤ p1 then .error () else
    let p2 := strchr0 mem p1 + 1
    if mdalloc ≤ p2 then .error () else
    let p3 := strchr0 mem p2 + 1
    if mdalloc ≤ p3 then .error () else
    match metaWalk mem mdalloc count (p3 + 4) with
    | .error e => .error e
    | .ok rest => .ok (⟨ptr, p1, p2, taxidAt mem p3⟩ :: rest)

/-- The loader-populated part of an `ESL_DSQDATA_CHUNK`: sequence count `N`,
the packet stream `psq` (its length is the C field `pn`), and the metadata
buffer contents together with its allocation size `mdalloc`. -/
structure Chunk where
  N : ℕ
  psq : List ℕ
  metadata : List ℕ
  mdalloc : ℕ
deriving DecidableEq

/-- `dsqdata_unpack_chunk`: decode the metadata (which can fail with
`eslEFORMAT`, the `.error` case), then decode the packets.  The final
`ESL_DASSERT1((i == chu->N))` is a debug-build assertion, not a control
path: the C function returns `eslOK` regardless, which is why the result
carries the final loop state rather than failing. -/
def dsqdata_unpack_chunk (chu : Chunk) : Except Unit (List MetaRec × UState) :=
  match metaWalk chu.metadata chu.mdalloc chu.N 0 with
  | .error e => .error e
  | .ok recs => .ok (recs, unpackSeqs chu.N chu.psq)

/-- The binary search of `dsqdata_loader_thread` for the chunk boundary:
`nload = max i : idx[i-1].psq_end - psq_last <= maxpacket`, maintaining
`nload` (fits) and `righti` (does not fit).  `e i` models
`idx[i].psq_end`. -/
def nload_bsearch (e : ℕ → ℤ) (psq_last maxp : ℤ) : ℕ → ℕ → ℕ → ℕ
  | 0, nload, _ => nload
  | fuel + 1, nload, righti =>
    if 1 < righti - nload then
      let mid := nload + (righti - nload) / 2
      if e (mid - 1) - psq_last ≤ maxp then nload_bsearch e psq_last maxp fuel mid righti
      else nload_bsearch e psq_last maxp fuel nload mid
    else nload

/-- The loader's computation of `nload` (step 4 of its main loop): take all
`nidx` records if the last one fits, else binary-search the boundary
starting from `nload = 1`, `righti = nidx`. -/
def nload_compute (e : ℕ → ℤ) (nidx : ℕ) (psq_last maxp : ℤ) : ℕ :=
  if e (nidx - 1) - psq_last ≤ maxp then nidx
  else nload_bsearch e psq_last maxp nidx 1 nidx

/-- The consumer-facing reader state: the latched EOF flag `at_eof`, the
unpacker's single-slot outbox, and the recycling stack. -/
structure RState where
  at_eof : Bool
  outbox : Option Chunk
  recycling : List Chunk
deriving DecidableEq

/-- `esl_dsqdata_Read` as one atomic step (its critical section runs under
the outbox mutex; the early `at_eof` test only ever races with the latch
from `false` to `true`).  `none` means the call would block waiting on the
outbox; otherwise the result is the new state plus the returned chunk
(`none` = EOF with a NULL chunk). -/
def dsqdata_read (s : RState) : Option (RState × Option Chunk) :=
  if s.at_eof then some (s, none)
  else
    match s.outbox with
    | none => none
    | some chu =>
      if chu.N = 0 then
        some ({ at_eof := true, outbox := none, recycling := chu :: s.recycling }, none)
      else
        some ({ s with outbox := none }, some chu)

/-- The unpacker's deposit into its outbox: only when the slot is empty
(it waits on `unpacker_outbox_empty_cv` otherwise). -/
def outboxDeposit (s : RState) (c : Chunk) : Option RState :=
  if s.outbox = none then some { s with outbox := some c } else none

/-- An event visible at the unpacker outbox: a deposit by the unpacker or a
completed `Read` by some consumer. -/
inductive PipeEvent where
  | deposit (c : Chunk)
  | read
deriving DecidableEq

/-- Run a sequence of events.  The result collects, for each completed
read, the state it observed and the chunk it returned (`none` = EOF). -/
def runPipe : RState → List PipeEvent → Option (RState × List (RState × Option Chunk))
  | s, [] => some (s, [])
  | s, .deposit c :: evs =>
    match outboxDeposit s c with
    | none => none
    | some s' => runPipe s' evs
  | s, .read :: evs =>
    match dsqdata_read s with
    | none => none
    | some (s', res) =>
      match runPipe s' evs with
      | none => none
      | some (sf, rds) => some (sf, (s, res) :: rds)

/-- A read takes the EOF chunk when the flag is not yet latched and the
outbox holds the `N = 0` chunk. -/
def takesEofChunk (s : RState) : Bool :=
  !s.at_eof && (match s.outbox with
    | some c => decide (c.N = 0)
    | none => false)

/-! ### Arithmetic helpers for the packed bit layout -/

/-- OR-ing a field into an accumulator whose low `b + m` bits are clear is
plain addition (no carries are possible). -/
theorem orField_eq_add (v x b m : ℕ) (hbm : b + m ≤ 32) (hv : v % 2 ^ (b + m) = 0)
    (hx : x < 2 ^ m) : orField v x b = v + x * 2 ^ b := by
  have hshift : x <<< b = x * 2 ^ b := Nat.shiftLeft_eq x b
  have hlt : x * 2 ^ b < 2 ^ (b + m) := by
    rw [Nat.pow_add, Nat.mul_comm (2 ^ b)]
    exact Nat.mul_lt_mul_of_lt_of_le hx (Nat.le_refl _) (Nat.two_pow_pos b)
  have hlt32 : x * 2 ^ b < 4294967296 := by
    calc x * 2 ^ b < 2 ^ (b + m) := hlt
    _ ≤ 2 ^ 32 := Nat.pow_le_pow_right (by norm_num) hbm
  obtain ⟨q, hq⟩ : 2 ^ (b + m) ∣ v := Nat.dvd_of_mod_eq_zero hv
  rw [orField, hshift, Nat.mod_eq_of_lt hlt32, hq]
  exact (Nat.mul_add_lt_is_or hlt q).symm

/-- OR-ing the EOD bit (`v |= 1 << 31`) into a value below `2^31` adds
`2^31`. -/
theorem orField_eod (v : ℕ) (hv : v < 2 ^ 31) : orField v 1 31 = 2 ^ 31 + v := by
  have h1 : (1 <<< 31) % 4294967296 = 2 ^ 31 := by rw [Nat.shiftLeft_eq]; norm_num
  have h2 := (Nat.mul_add_lt_is_or hv 1).symm
  rw [Nat.mul_one] at h2
  rw [orField, h1, Nat.lor_comm]
  exact h2

/-- Closed arithmetic form of a 5-bit packet with in-range slot values. -/
theorem packet5_eq (e : Bool) (x0 x1 x2 x3 x4 x5 : ℕ) (h0 : x0 < 32) (h1 : x1 < 32)
    (h2 : x2 < 32) (h3 : x3 < 32) (h4 : x4 < 32) (h5 : x5 < 32) :
    packet5 e [x0, x1, x2, x3, x4, x5] =
      (if e then 2 ^ 31 else 0) + 2 ^ 30 + x0 * 2 ^ 25 + x1 * 2 ^ 20 + x2 * 2 ^ 15 +
        x3 * 2 ^ 10 + x4 * 2 ^ 5 + x5 := by
  have h30 : (1 : ℕ) <<< 30 = 2 ^ 30 := by rw [Nat.shiftLeft_eq]; norm_num
  have s0 : orField (2 ^ 30) x0 25 = 2 ^ 30 + x0 * 2 ^ 25 :=
    orField_eq_add _ _ 25 5 (by norm_num) (by norm_num) h0
  have s1 : orField (2 ^ 30 + x0 * 2 ^ 25) x1 20 =
      2 ^ 30 + x0 * 2 ^ 25 + x1 * 2 ^ 20 :=
    orField_eq_add _ _ 20 5 (by norm_num) (by norm_num <;> omega) h1
  have s2 : orField (2 ^ 30 + x0 * 2 ^ 25 + x1 * 2 ^ 20) x2 15 =
      2 ^ 30 + x0 * 2 ^ 25 + x1 * 2 ^ 20 + x2 * 2 ^ 15 :=
    orField_eq_add _ _ 15 5 (by norm_num) (by norm_num <;> omega) h2
  have s3 : orField (2 ^ 30 + x0 * 2 ^ 25 + x1 * 2 ^ 20 + x2 * 2 ^ 15) x3 10 =
      2 ^ 30 + x0 * 2 ^ 25 + x1 * 2 ^ 20 + x2 * 2 ^ 15 + x3 * 2 ^ 10 :=
    orField_eq_add _ _ 10 5 (by norm_num) (by norm_num <;> omega) h3
  have s4 : orField (2 ^ 30 + x0 * 2 ^ 25 + x1 * 2 ^ 20 + x2 * 2 ^ 15 + x3 * 2 ^ 10) x4 5 =
      2 ^ 30 + x0 * 2 ^ 25 + x1 * 2 ^ 20 + x2 * 2 ^ 15 + x3 * 2 ^ 10 + x4 * 2 ^ 5 :=
    orField_eq_add _ _ 5 5 (by norm_num) (by norm_num <;> omega) h4
  have s5 : orField (2 ^ 30 + x0 * 2 ^ 25 + x1 * 2 ^ 20 + x2 * 2 ^ 15 + x3 * 2 ^ 10 +
      x4 * 2 ^ 5) x5 0 =
      2 ^ 30 + x0 * 2 ^ 25 + x1 * 2 ^ 20 + x2 * 2 ^ 15 + x3 * 2 ^ 10 + x4 * 2 ^ 5 + x5 := by
    have := orField_eq_add (2 ^ 30 + x0 * 2 ^ 25 + x1 * 2 ^ 20 + x2 * 2 ^ 15 + x3 * 2 ^ 10 +
      x4 * 2 ^ 5) x5 0 5 (by norm_num) (by norm_num <;> omega) h5
    simpa using this
  have hbody : ((([x0, x1, x2, x3, x4, x5].zip [25, 20, 15, 10, 5, 0])).foldl
      (fun v xb => orField v xb.1 xb.2) (1 <<< 30)) =
      2 ^ 30 + x0 * 2 ^ 25 + x1 * 2 ^ 20 + x2 * 2 ^ 15 + x3 * 2 ^ 10 + x4 * 2 ^ 5 + x5 := by
    simp only [List.zip_cons_cons, List.zip_nil_right, List.foldl_cons, List.foldl_nil, h30]
    rw [s0, s1, s2, s3, s4, s5]
  cases e with
  | false => simpa [packet5] using hbody
  | true =>
    have hlt : 2 ^ 30 + x0 * 2 ^ 25 + x1 * 2 ^ 20 + x2 * 2 ^ 15 + x3 * 2 ^ 10 + x4 * 2 ^ 5 +
        x5 < 2 ^ 31 := by omega
    simp only [packet5, hbody, if_true]
    rw [orField_eod _ hlt]
    omega

/-- `y &&& 31` is `y % 32`. -/
theorem and31 (y : ℕ) : y &&& 31 = y % 32 := by
  have := Nat.and_pow_two_sub_one_eq_mod y 5
  norm_num at this
  exact this

/-- Decoding the slots of an in-range 5-bit packet recovers them. -/
theorem slots5_packet5 (e : Bool) (x0 x1 x2 x3 x4 x5 : ℕ) (h0 : x0 < 32) (h1 : x1 < 32)
    (h2 : x2 < 32) (h3 : x3 < 32) (h4 : x4 < 32) (h5 : x5 < 32) :
    slots5 (packet5 e [x0, x1, x2, x3, x4, x5]) = [x0, x1, x2, x3, x4, x5] := by
  rw [packet5_eq e x0 x1 x2 x3 x4 x5 h0 h1 h2 h3 h4 h5]
  simp only [slots5, Nat.shiftRight_eq_div_pow, and31, List.cons.injEq, and_true]
  cases e <;> norm_num <;> omega

/-- Bit 30 (the 5-bit packing flag) is set on every in-range 5-bit packet. -/
theorem packet5_testBit30 (e : Bool) (x0 x1 x2 x3 x4 x5 : ℕ) (h0 : x0 < 32) (h1 : x1 < 32)
    (h2 : x2 < 32) (h3 : x3 < 32) (h4 : x4 < 32) (h5 : x5 < 32) :
    (packet5 e [x0, x1, x2, x3, x4, x5]).testBit 30 = true := by
  rw [packet5_eq e x0 x1 x2 x3 x4 x5 h0 h1 h2 h3 h4 h5, Nat.testBit_to_div_mod,
    decide_eq_true_eq]
  cases e <;> norm_num <;> omega

/-- Bit 31 (EOD) of an in-range 5-bit packet is its EOD flag. -/
theorem packet5_testBit31 (e : Bool) (x0 x1 x2 x3 x4 x5 : ℕ) (h0 : x0 < 32) (h1 : x1 < 32)
    (h2 : x2 < 32) (h3 : x3 < 32) (h4 : x4 < 32) (h5 : x5 < 32) :
    (packet5 e [x0, x1, x2, x3, x4, x5]).testBit 31 = e := by
  rw [packet5_eq e x0 x1 x2 x3 x4 x5 h0 h1 h2 h3 h4 h5, Nat.testBit_to_div_mod]
  cases e <;> simp <;> omega

/-- The slot list spelled out. -/
theorem pack5_slots_eq (dsq : ℕ → ℕ) (n r : ℕ) :
    pack5_slots dsq n r =
      [if r + 0 ≤ n then dsq (r + 0) else 31, if r + 1 ≤ n then dsq (r + 1) else 31,
       if r + 2 ≤ n then dsq (r + 2) else 31, if r + 3 ≤ n then dsq (r + 3) else 31,
       if r + 4 ≤ n then dsq (r + 4) else 31, if r + 5 ≤ n then dsq (r + 5) else 31] := rfl

/-- Length of the `pack5` loop output: one packet per six residues starting
at `r`, none once `r` exceeds `n`. -/
theorem pack5_loop_length (dsq : ℕ → ℕ) (n : ℕ) :
    ∀ fuel r, n + 1 - r ≤ fuel →
      (pack5_loop dsq n fuel r).length = if r ≤ n then (n - r) / 6 + 1 else 0 := by
  intro fuel
  induction fuel with
  | zero =>
    intro r hr
    have : ¬ r ≤ n := by omega
    simp [pack5_loop, this]
  | succ fuel ih =>
    intro r hr
    by_cases hrn : r ≤ n
    · have htail := ih (r + 6) (by omega)
      simp only [pack5_loop, hrn, if_true, List.length_cons, htail]
      by_cases h6 : r + 6 ≤ n
      · simp only [h6, if_true]; omega
      · simp only [h6, if_false]; omega
    · simp [pack5_loop, hrn]

/-- Closed form of the `pack5` loop: packet `j` is the 5-bit packet for the
six residue positions starting at `r + 6 j`, with EOD exactly on the final
packet. -/
theorem pack5_loop_eq (dsq : ℕ → ℕ) (n : ℕ) :
    ∀ fuel r, n + 1 - r ≤ fuel →
      pack5_loop dsq n fuel r =
        (List.range (if r ≤ n then (n - r) / 6 + 1 else 0)).map
          (fun j => packet5 (decide (n < r + 6 * j + 6)) (pack5_slots dsq n (r + 6 * j))) := by
  intro fuel
  induction fuel with
  | zero =>
    intro r hr
    have : ¬ r ≤ n := by omega
    simp [pack5_loop, this]
  | succ fuel ih =>
    intro r hr
    by_cases hrn : r ≤ n
    · have htail := ih (r + 6) (by omega)
      have hcnt : (if r + 6 ≤ n then (n - (r + 6)) / 6 + 1 else 0) = (n - r) / 6 := by
        by_cases h6 : r + 6 ≤ n
        · simp only [h6, if_true]; omega
        · simp only [h6, if_false]; omega
      simp only [pack5_loop, hrn, if_true, htail, hcnt, List.range_succ_eq_map,
        List.map_cons, List.map_map]
      congr 1
      apply List.map_congr_left
      intro a _
      simp only [Function.comp_apply, Nat.succ_eq_add_one]
      have e1 : r + 6 * (a + 1) = r + 6 + 6 * a := by ring
      rw [e1]
    · simp [pack5_loop, hrn]

/-- **C2 (amended).** For residue codes in `0..30`, `dsqdata_pack5` produces
exactly `⌊(n+5)/6⌋` packets — `⌈n/6⌉`, so **zero** packets for `n = 0`, not a
single EOD packet, and `⌈n/6⌉`, not `⌈(n+1)/6⌉`, for positive multiples of
six.  Every packet has bit 30 set; bit 31 is set on the last packet only; and
a decoded slot holds the padding code 31 exactly when its residue position
exceeds `n` — such slots exist only in the trailing slots of the last
packet. -/
theorem pack5_packet_arithmetic (dsq : ℕ → ℕ) (n : ℕ)
    (hres : ∀ k, 1 ≤ k → k ≤ n → dsq k ≤ 30) :
    (dsqdata_pack5 dsq n).length = (n + 5) / 6 ∧
    (∀ j, (hj : j < (dsqdata_pack5 dsq n).length) →
      ((dsqdata_pack5 dsq n)[j].testBit 30 = true) ∧
      ((dsqdata_pack5 dsq n)[j].testBit 31 =
        decide (j + 1 = (dsqdata_pack5 dsq n).length)) ∧
      (∀ k, k < 6 →
        ((slots5 (dsqdata_pack5 dsq n)[j]).getD k 0 = 31 ↔ n < 1 + 6 * j + k))) := by
  have hP : dsqdata_pack5 dsq n =
      (List.range ((n + 5) / 6)).map
        (fun j => packet5 (decide (n < 1 + 6 * j + 6)) (pack5_slots dsq n (1 + 6 * j))) := by
    rw [dsqdata_pack5, pack5_loop_eq dsq n (n + 1) 1 (by omega)]
    have hc : (if 1 ≤ n then (n - 1) / 6 + 1 else 0) = (n + 5) / 6 := by
      by_cases h1 : 1 ≤ n
      · simp only [h1, if_true]; omega
      · simp only [h1, if_false]; omega
    rw [hc]
  have hlen : (dsqdata_pack5 dsq n).length = (n + 5) / 6 := by
    rw [hP]; simp
  refine ⟨hlen, ?_⟩
  intro j hj
  have hjlen : j < (n + 5) / 6 := hlen ▸ hj
  have hget : (dsqdata_pack5 dsq n)[j] =
      packet5 (decide (n < 1 + 6 * j + 6)) (pack5_slots dsq n (1 + 6 * j)) := by
    simp only [hP, List.getElem_map, List.getElem_range]
  -- bounds for the six slot values of packet j
  have hb : ∀ k, (if 1 + 6 * j + k ≤ n then dsq (1 + 6 * j + k) else 31) < 32 := by
    intro k
    by_cases hk : 1 + 6 * j + k ≤ n
    · simp only [hk, if_true]
      exact Nat.lt_of_le_of_lt (hres _ (by omega) hk) (by norm_num)
    · simp [hk]
  have hslots : pack5_slots dsq n (1 + 6 * j) =
      [if 1 + 6 * j + 0 ≤ n then dsq (1 + 6 * j + 0) else 31,
       if 1 + 6 * j + 1 ≤ n then dsq (1 + 6 * j + 1) else 31,
       if 1 + 6 * j + 2 ≤ n then dsq (1 + 6 * j + 2) else 31,
       if 1 + 6 * j + 3 ≤ n then dsq (1 + 6 * j + 3) else 31,
       if 1 + 6 * j + 4 ≤ n then dsq (1 + 6 * j + 4) else 31,
       if 1 + 6 * j + 5 ≤ n then dsq (1 + 6 * j + 5) else 31] := pack5_slots_eq dsq n (1 + 6 * j)
  rw [hget, hslots]
  -- the EOD flag of packet j is `j + 1 = length`
  have heod : (decide (n < 1 + 6 * j + 6)) = decide (j + 1 = (dsqdata_pack5 dsq n).length) := by
    rw [hlen]
    by_cases h : n < 1 + 6 * j + 6
    · have h2 : j + 1 = (n + 5) / 6 := by omega
      simp [h, h2]
    · have h2 : ¬ (j + 1 = (n + 5) / 6) := by omega
      simp [h, h2]
  refine ⟨packet5_testBit30 _ _ _ _ _ _ _ (hb 0) (hb 1) (hb 2) (hb 3) (hb 4) (hb 5), ?_, ?_⟩
  · rw [packet5_testBit31 _ _ _ _ _ _ _ (hb 0) (hb 1) (hb 2) (hb 3) (hb 4) (hb 5), heod]
  · intro k hk
    rw [slots5_packet5 _ _ _ _ _ _ _ (hb 0) (hb 1) (hb 2) (hb 3) (hb 4) (hb 5)]
    have hpad : ∀ p, 1 ≤ p → ((if p ≤ n then dsq p else 31) = 31 ↔ n < p) := by
      intro p hp1
      by_cases hc : p ≤ n
      · have := hres p hp1 hc
        rw [if_pos hc]
        constructor <;> intro h <;> omega
      · rw [if_neg hc]
        constructor <;> intro h <;> omega
    interval_cases k <;> simp only [List.getD_cons_zero, List.getD_cons_succ] <;>
      exact hpad _ (by omega)

/-- **C2, counterexample to the claim as stated.** For `n = 6` the claim
predicts `⌈(6+1)/6⌉ = 2` packets, but `dsqdata_pack5` emits a single (full,
EOD) packet — consistent with the code's own note that a protein sequence of
length `N` packs into `(N+5)/6` packets. -/
theorem pack5_count_counterexample :
    (dsqdata_pack5 (fun _ => 0) 6).length = 1 ∧ (6 + 1 + 5) / 6 = 2 :=
  ⟨by decide, by decide⟩

/-- Witness: `pack5_packet_arithmetic` applied to a length-1 sequence. -/
theorem pack5_packet_arithmetic_witness :
    (dsqdata_pack5 (fun _ => 0) 1).length = (1 + 5) / 6 :=
  (pack5_packet_arithmetic (fun _ => 0) 1 (fun _ _ _ => by norm_num)).1

/-! ### `pack2`: the mixed 2-bit/5-bit encoder and its packet-emission rule -/

theorem sufList_length (dsq : ℕ → ℕ) (n r : ℕ) : (sufList dsq n r).length = n + 1 - r := by
  simp [sufList]

theorem sufList_getElem (dsq : ℕ → ℕ) (n r i : ℕ) (h : i < (sufList dsq n r).length) :
    (sufList dsq n r)[i] = dsq (r + i) := by
  simp [sufList]

theorem resList_eq_sufList (dsq : ℕ → ℕ) (n : ℕ) : resList dsq n = sufList dsq n 1 := by
  simp only [resList, sufList, Nat.add_sub_cancel]
  apply List.map_congr_left
  intro a _
  rw [Nat.add_comm]

theorem sufList_drop (dsq : ℕ → ℕ) (n r k : ℕ) :
    (sufList dsq n r).drop k = sufList dsq n (r + k) := by
  apply List.ext_getElem
  · simp [sufList]; omega
  · intro i h1 h2
    simp only [sufList, List.getElem_drop, List.getElem_map, List.getElem_range]
    congr 1
    omega

theorem sufList_take15 (dsq : ℕ → ℕ) (n r : ℕ) (h : 15 ≤ n + 1 - r) :
    (sufList dsq n r).take 15 =
      [dsq (r + 0), dsq (r + 1), dsq (r + 2), dsq (r + 3), dsq (r + 4), dsq (r + 5),
       dsq (r + 6), dsq (r + 7), dsq (r + 8), dsq (r + 9), dsq (r + 10), dsq (r + 11),
       dsq (r + 12), dsq (r + 13), dsq (r + 14)] := by
  rw [sufList, ← List.map_take, List.take_range, show min 15 (n + 1 - r) = 15 by omega]
  rfl

theorem packet2L_eq_packet2 (e : Bool) (dsq : ℕ → ℕ) (r : ℕ) :
    packet2L e [dsq (r + 0), dsq (r + 1), dsq (r + 2), dsq (r + 3), dsq (r + 4), dsq (r + 5),
      dsq (r + 6), dsq (r + 7), dsq (r + 8), dsq (r + 9), dsq (r + 10), dsq (r + 11),
      dsq (r + 12), dsq (r + 13), dsq (r + 14)] = packet2 e dsq r := by
  rw [packet2L, packet2,
    show List.range 15 = [0, 1, 2, 3, 4, 5, 6, 7, 8, 9, 10, 11, 12, 13, 14] from rfl]
  norm_num

/-- Correctness of the degenerate-residue detector: it returns the first
position in `start..n` with a code `> 3`, or `n + 1` if there is none. -/
theorem nextDegen_correct (dsq : ℕ → ℕ) (n : ℕ) :
    ∀ fuel start, start ≤ n + 1 → n + 1 - start ≤ fuel →
      start ≤ nextDegen dsq n fuel start ∧ nextDegen dsq n fuel start ≤ n + 1 ∧
      (∀ k, start ≤ k → k < nextDegen dsq n fuel start → dsq k ≤ 3) ∧
      (nextDegen dsq n fuel start ≤ n → 3 < dsq (nextDegen dsq n fuel start)) := by
  intro fuel
  induction fuel with
  | zero =>
    intro start h1 h2
    have hs : start = n + 1 := by omega
    have hval : nextDegen dsq n 0 start = start := rfl
    rw [hval]
    exact ⟨Nat.le_refl _, by omega, fun k hk1 hk2 => by omega, by omega⟩
  | succ fuel ih =>
    intro start h1 h2
    by_cases hsn : start ≤ n
    · by_cases hdeg : 3 < dsq start
      · have hval : nextDegen dsq n (fuel + 1) start = start := by
          simp [nextDegen, hsn, hdeg]
        rw [hval]
        exact ⟨Nat.le_refl _, by omega, fun k hk1 hk2 => by omega, fun _ => hdeg⟩
      · have hrec := ih (start + 1) (by omega) (by omega)
        have hval : nextDegen dsq n (fuel + 1) start = nextDegen dsq n fuel (start + 1) := by
          simp [nextDegen, hsn, hdeg]
        rw [hval]
        refine ⟨by omega, hrec.2.1, ?_, hrec.2.2.2⟩
        intro k hk1 hk2
        rcases Nat.eq_or_lt_of_le hk1 with h | h
        · rw [← h]; omega
        · exact hrec.2.2.1 k (by omega) hk2
    · have hs : start = n + 1 := by omega
      have hval : nextDegen dsq n (fuel + 1) start = start := by
        simp [nextDegen, hsn]
      rw [hval]
      exact ⟨Nat.le_refl _, by omega, fun k hk1 hk2 => by omega, by omega⟩

/-- One unfolding of the `pack2` loop when residues remain, with the
recomputed detector value written out. -/
theorem pack2_loop_cons (dsq : ℕ → ℕ) (n fuel r d : ℕ) (hrn : r ≤ n) :
    pack2_loop dsq n (fuel + 1) r d =
      if 15 ≤ n - r + 1 ∧ r + 14 < (if d < r then nextDegen dsq n (n + 1) r else d) then
        packet2 (decide (n < r + 15)) dsq r ::
          pack2_loop dsq n fuel (r + 15) (if d < r then nextDegen dsq n (n + 1) r else d)
      else
        packet5 (decide (n < r + 6)) (pack5_slots dsq n r) ::
          pack2_loop dsq n fuel (r + 6) (if d < r then nextDegen dsq n (n + 1) r else d) := by
  simp only [pack2_loop, hrn, if_true]

/-- **C3.** `dsqdata_pack2` emits packets exactly by the claim's rule: with
the unconsumed residues as state, emit a full 2-bit packet consuming 15
residues iff at least 15 remain and none of them is degenerate (code `> 3`);
otherwise emit a 5-bit packet consuming up to 6 residues (padded with 31);
the EOD bit is set exactly on the packet that consumes the last residue. -/
theorem pack2_emits_by_rule (dsq : ℕ → ℕ) (n : ℕ) :
    dsqdata_pack2 dsq n = pack2_rule (resList dsq n) := by
  rw [dsqdata_pack2, resList_eq_sufList]
  -- generalized induction over the loop, carrying the detector invariant
  suffices h : ∀ fuel r d, 1 ≤ r → n + 1 - r ≤ fuel →
      (d < r ∨ (d ≤ n + 1 ∧ (∀ k, r ≤ k → k < d → dsq k ≤ 3) ∧ (d ≤ n → 3 < dsq d))) →
      pack2_loop dsq n fuel r d = pack2_rule (sufList dsq n r) by
    exact h (n + 1) 1 0 (Nat.le_refl _) (by omega) (Or.inl (by omega))
  intro fuel
  induction fuel with
  | zero =>
    intro r d h1 hfuel _
    have hnil : sufList dsq n r = [] := by
      rw [← List.length_eq_zero]
      rw [sufList_length]
      omega
    rw [hnil]
    simp [pack2_loop, pack2_rule]
  | succ fuel ih =>
    intro r d h1 hfuel hinv
    by_cases hrn : r ≤ n
    · -- the detector value used this iteration, with its properties
      have hd' : r ≤ (if d < r then nextDegen dsq n (n + 1) r else d) ∧
          (if d < r then nextDegen dsq n (n + 1) r else d) ≤ n + 1 ∧
          (∀ k, r ≤ k → k < (if d < r then nextDegen dsq n (n + 1) r else d) → dsq k ≤ 3) ∧
          ((if d < r then nextDegen dsq n (n + 1) r else d) ≤ n →
            3 < dsq (if d < r then nextDegen dsq n (n + 1) r else d)) := by
        by_cases hdr : d < r
        · simp only [hdr, if_true]
          exact nextDegen_correct dsq n (n + 1) r (by omega) (by omega)
        · simp only [hdr, if_false]
          rcases hinv with h | ⟨ha, hb, hc⟩
          · omega
          · exact ⟨by omega, ha, hb, hc⟩
      obtain ⟨e, he⟩ : ∃ e, (if d < r then nextDegen dsq n (n + 1) r else d) = e := ⟨_, rfl⟩
      rw [he] at hd'
      obtain ⟨her, hen, hcan, hdeg⟩ := hd'
      rw [pack2_loop_cons dsq n fuel r d hrn, he]
      -- expose the rule on the nonempty suffix
      obtain ⟨x, rest, hx⟩ : ∃ x rest, sufList dsq n r = x :: rest := by
        have : (sufList dsq n r).length = n + 1 - r := sufList_length dsq n r
        cases hsuf : sufList dsq n r with
        | nil => rw [hsuf] at this; simp at this; omega
        | cons x rest => exact ⟨x, rest, rfl⟩
      have hlen : (x :: rest).length = n + 1 - r := by rw [← hx, sufList_length]
      -- the loop condition coincides with the rule condition
      have hcond : (15 ≤ n - r + 1 ∧ r + 14 < e) ↔
          (15 ≤ (x :: rest).length ∧ (∀ y ∈ (x :: rest).take 15, y ≤ 3)) := by
        rw [hlen]
        constructor
        · rintro ⟨hc1, hc2⟩
          refine ⟨by omega, ?_⟩
          intro y hy
          rw [← hx, sufList_take15 dsq n r (by omega)] at hy
          simp only [List.mem_cons, List.not_mem_nil, or_false] at hy
          rcases hy with h|h|h|h|h|h|h|h|h|h|h|h|h|h|h <;>
            · rw [h]; exact hcan _ (by omega) (by omega)
        · rintro ⟨hc1, hc2⟩
          refine ⟨by omega, ?_⟩
          by_contra hlt
          have hee : e ≤ n := by omega
          have : dsq e ≤ 3 := by
            have hmem : dsq e ∈ (x :: rest).take 15 := by
              rw [← hx, sufList_take15 dsq n r (by omega)]
              have : ∀ m, m < 15 → e = r + m → dsq (r + m) ∈
                  [dsq (r + 0), dsq (r + 1), dsq (r + 2), dsq (r + 3), dsq (r + 4),
                   dsq (r + 5), dsq (r + 6), dsq (r + 7), dsq (r + 8), dsq (r + 9),
                   dsq (r + 10), dsq (r + 11), dsq (r + 12), dsq (r + 13), dsq (r + 14)] := by
                intro m hm _
                interval_cases m <;> simp
              have hem : e = r + (e - r) := by omega
              rw [hem]
              exact this (e - r) (by omega) hem
            exact hc2 _ hmem
          have := hdeg hee
          omega
      by_cases hC : 15 ≤ n - r + 1 ∧ r + 14 < e
      · -- 2-bit branch
        have hC' := hcond.mp hC
        rw [if_pos hC, hx, pack2_rule, if_pos hC']
        have htake := sufList_take15 dsq n r (by omega)
        rw [hx] at htake
        congr 1
        · rw [htake, packet2L_eq_packet2]
          congr 1
          rw [decide_eq_decide, hlen]
          omega
        · have hdrop : (x :: rest).drop 15 = sufList dsq n (r + 15) := by
            rw [← hx, sufList_drop]
          rw [hdrop]
          exact ih (r + 15) e (by omega) (by omega)
            (Or.inr ⟨hen, fun k hk1 hk2 => hcan k (by omega) hk2, hdeg⟩)
      · -- 5-bit branch
        have hC' := (not_congr hcond).mp hC
        rw [if_neg hC, hx, pack2_rule, if_neg hC']
        congr 1
        · have hslots : (x :: rest).take 6 ++ List.replicate (6 - (x :: rest).length) 31 =
              pack5_slots dsq n r := by
            apply List.ext_getElem
            · rw [List.length_append, List.length_take, List.length_replicate, hlen]
              simp only [pack5_slots, List.length_map, List.length_range]
              omega
            · intro i hi1 hi2
              simp only [pack5_slots, List.length_map, List.length_range] at hi2
              simp only [pack5_slots, List.getElem_map, List.getElem_range]
              by_cases hin : i < (x :: rest).length
              · rw [List.getElem_append_left (by rw [List.length_take]; omega),
                  List.getElem_take, List.getElem_of_eq hx.symm hin]
                simp only [sufList, List.getElem_map, List.getElem_range]
                have hrin : r + i ≤ n := by omega
                simp [hrin]
              · rw [List.getElem_append_right (by rw [List.length_take]; omega),
                  List.getElem_replicate]
                have hrin : ¬ (r + i ≤ n) := by omega
                simp [hrin]
          rw [hslots]
          congr 1
          rw [decide_eq_decide, hlen]
          omega
        · have hdrop : (x :: rest).drop 6 = sufList dsq n (r + 6) := by
            rw [← hx, sufList_drop]
          rw [hdrop]
          have hinv6 : e < r + 6 ∨ (e ≤ n + 1 ∧ (∀ k, r + 6 ≤ k → k < e → dsq k ≤ 3) ∧
              (e ≤ n → 3 < dsq e)) := by
            by_cases h6 : e < r + 6
            · exact Or.inl h6
            · exact Or.inr ⟨hen, fun k hk1 hk2 => hcan k (by omega) hk2, hdeg⟩
          exact ih (r + 6) e (by omega) (by omega) hinv6
    · -- no residues left: both sides are empty
      have hnil : sufList dsq n r = [] := by
        rw [← List.length_eq_zero, sufList_length]
        omega
      rw [hnil]
      simp [pack2_loop, hrn, pack2_rule]

/-! ### The unpack loop: step lemmas and per-claim theorems -/

/-- A non-EOD packet only appends its residues. -/
theorem unpackStep_nonEOD (N : ℕ) (s : UState) (v : ℕ) (h : isEOD v = false) :
    unpackStep N s v = { s with arena := s.arena ++ packetResidues v } := by
  simp only [isEOD, Bool.or_eq_false_iff, decide_eq_false_iff_not] at h
  unfold unpackStep packetResidues
  rcases ht : v >>> 30 with _ | _ | _ | _ | t
  · rfl
  · rfl
  · exact absurd ht h.1
  · exact absurd ht h.2
  · simp

/-- An EOD packet appends its residues and then finalizes the sequence. -/
theorem unpackStep_EOD (N : ℕ) (s : UState) (v : ℕ) (h : isEOD v = true) :
    unpackStep N s v = finalizeSeq N { s with arena := s.arena ++ packetResidues v } := by
  simp only [isEOD, Bool.or_eq_true, decide_eq_true_eq] at h
  unfold unpackStep packetResidues
  rcases ht : v >>> 30 with _ | _ | _ | _ | t <;> simp_all

theorem finalizeSeq_i (N : ℕ) (s : UState) : (finalizeSeq N s).i = s.i + 1 := rfl

theorem finalizeSeq_arena (N : ℕ) (s : UState) :
    (finalizeSeq N s).arena = s.arena ++ [eslDSQ_SENTINEL] := rfl

theorem finalizeSeq_Lw (N : ℕ) (s : UState) :
    (finalizeSeq N s).Lw =
      s.Lw ++ [(s.i, (s.arena.length : ℤ) - (dsqLookup s.dsqw s.i : ℤ) - 1)] := rfl

theorem finalizeSeq_dsqw (N : ℕ) (s : UState) :
    (finalizeSeq N s).dsqw =
      if s.i + 1 < N then s.dsqw ++ [(s.i + 1, s.arena.length)] else s.dsqw := rfl

/-- Each step advances the sequence index by one exactly on EOD packets. -/
theorem unpackStep_i (N : ℕ) (s : UState) (v : ℕ) :
    (unpackStep N s v).i = s.i + (if isEOD v then 1 else 0) := by
  by_cases h : isEOD v = true
  · rw [unpackStep_EOD N s v h, finalizeSeq_i, h]
    simp
  · rw [unpackStep_nonEOD N s v (by simpa using h)]
    simp only [h, if_false]
    simp

/-- Over any packet list, the sequence index advances by the number of EOD
packets. -/
theorem unpackFold_i (N : ℕ) (ps : List ℕ) :
    ∀ s : UState, (ps.foldl (unpackStep N) s).i = s.i + ps.countP isEOD := by
  induction ps with
  | nil => intro s; simp
  | cons v ps ih =>
    intro s
    rw [List.foldl_cons, ih, unpackStep_i, List.countP_cons]
    by_cases h : isEOD v = true <;> simp [h] <;> omega

/-- **C7 (amended).** The unpack routine does not verify that the packet
stream finalizes exactly `N` sequences: whenever the metadata walk succeeds
it returns success (`eslOK`), whatever the packet stream, and the final
sequence index equals the number of EOD packets in the stream — which the
debug-only assertion `ESL_DASSERT1((i == chu->N))` compares against `N`, but
no `eslEFORMAT` is ever raised for a mismatch. -/
theorem unpack_ok_despite_seq_mismatch (chu : Chunk) (recs : List MetaRec)
    (hmeta : metaWalk chu.metadata chu.mdalloc chu.N 0 = .ok recs) :
    dsqdata_unpack_chunk chu = .ok (recs, unpackSeqs chu.N chu.psq) ∧
    (unpackSeqs chu.N chu.psq).i = eodCount chu.psq := by
  constructor
  · rw [dsqdata_unpack_chunk, hmeta]
  · rw [unpackSeqs, unpackFold_i, eodCount]
    simp [unpackInit]

/-- **C7, counterexample to the claim as stated.** A chunk announcing
`N = 2` sequences whose packet stream holds a single EOD packet (so it
finalizes only one sequence) is unpacked *successfully*: no format error is
returned.  The metadata buffer holds 14 zero bytes — two valid records of
empty strings — so the metadata walk passes. -/
theorem unpack_seq_mismatch_counterexample :
    eodCount [3221225472] ≠ 2 ∧
    (dsqdata_unpack_chunk ⟨2, [3221225472], List.replicate 14 0, 14⟩).isOk = true ∧
    (unpackSeqs 2 [3221225472]).i = 1 :=
  ⟨by decide, by decide, by decide⟩

/-- Witness: `unpack_ok_despite_seq_mismatch` on the chunk of the
counterexample above. -/
theorem unpack_ok_despite_seq_mismatch_witness :
    dsqdata_unpack_chunk ⟨2, [3221225472], List.replicate 14 0, 14⟩ =
      .ok ([⟨0, 1, 2, 0⟩, ⟨7, 8, 9, 0⟩], unpackSeqs 2 [3221225472]) :=
  (unpack_ok_despite_seq_mismatch ⟨2, [3221225472], List.replicate 14 0, 14⟩
    [⟨0, 1, 2, 0⟩, ⟨7, 8, 9, 0⟩] (by rfl)).1

/-- **C10 (amended).** The guarded stores to `chu->dsq` stay below
`max N 1` (index 0 is written unconditionally before the loop), but the
stores to `chu->L` are *unguarded*: their indices run up to the number of
EOD packets in the stream, so a malformed stream with more than `N` EOD
packets writes `L` at indices `≥ N`. -/
theorem unpack_write_indices (N : ℕ) (psq : List ℕ) :
    (∀ p ∈ (unpackSeqs N psq).Lw, p.1 < eodCount psq) ∧
    (∀ p ∈ (unpackSeqs N psq).dsqw, p.1 < max N 1) := by
  suffices h : ∀ s : UState, (∀ p ∈ s.Lw, p.1 < s.i) →
      (∀ p ∈ s.dsqw, p.1 ≤ s.i ∧ p.1 < max N 1) →
      (∀ p ∈ (psq.foldl (unpackStep N) s).Lw, p.1 < (psq.foldl (unpackStep N) s).i) ∧
      (∀ p ∈ (psq.foldl (unpackStep N) s).dsqw,
        p.1 ≤ (psq.foldl (unpackStep N) s).i ∧ p.1 < max N 1) by
    have hmain := h unpackInit (by simp [unpackInit]) (by simp [unpackInit])
    have hi := unpackFold_i N psq unpackInit
    constructor
    · intro p hp
      have hplt := hmain.1 p hp
      rw [unpackSeqs] at *
      rw [hi] at hplt
      simpa [unpackInit, eodCount] using hplt
    · intro p hp
      rw [unpackSeqs] at hp
      exact (hmain.2 p hp).2
  induction psq with
  | nil => intro s h1 h2; exact ⟨h1, h2⟩
  | cons v ps ih =>
    intro s h1 h2
    rw [List.foldl_cons]
    apply ih
    · by_cases h : isEOD v = true
      · rw [unpackStep_EOD N s v h]
        intro p hp
        rw [finalizeSeq_Lw, List.mem_append] at hp
        rw [finalizeSeq_i]
        rcases hp with hp | hp
        · have := h1 p hp
          simp only [] at this ⊢
          omega
        · simp only [List.mem_singleton] at hp
          rw [hp]
          simp
      · rw [unpackStep_nonEOD N s v (by simpa using h)]
        exact h1
    · by_cases h : isEOD v = true
      · rw [unpackStep_EOD N s v h]
        intro p hp
        rw [finalizeSeq_dsqw] at hp
        rw [finalizeSeq_i]
        simp only [] at hp ⊢
        by_cases hlt : s.i + 1 < N
        · rw [if_pos hlt, List.mem_append] at hp
          rcases hp with hp | hp
          · have := h2 p hp
            exact ⟨by omega, this.2⟩
          · simp only [List.mem_singleton] at hp
            rw [hp]
            exact ⟨by simp, by simp; omega⟩
        · rw [if_neg hlt] at hp
          have := h2 p hp
          exact ⟨by omega, this.2⟩
      · rw [unpackStep_nonEOD N s v (by simpa using h)]
        exact h2

theorem dsqLookup_append_last (w : List (ℕ × ℕ)) (j x : ℕ) :
    dsqLookup (w ++ [(j, x)]) j = x := by
  simp [dsqLookup]

theorem dsqLookup_append_ne (w : List (ℕ × ℕ)) (j x k : ℕ) (h : ¬ k = j) :
    dsqLookup (w ++ [(j, x)]) k = dsqLookup w k := by
  have hb : ((j, x).1 == k) = false := by
    simp
    omega
  simp [dsqLookup, List.find?_cons, hb]

theorem segResidues_eq (sp : List ℕ × ℕ) :
    segResidues sp = (sp.1.map packetResidues).flatten ++ packetResidues sp.2 := by
  simp [segResidues, segPackets]

/-- A run of non-EOD packets only appends their residues to the arena. -/
theorem unpackFold_nonEOD (N : ℕ) (body : List ℕ) (h : ∀ p ∈ body, isEOD p = false) :
    ∀ s : UState, body.foldl (unpackStep N) s =
      { s with arena := s.arena ++ (body.map packetResidues).flatten } := by
  induction body with
  | nil => intro s; simp
  | cons v ps ih =>
    intro s
    rw [List.foldl_cons, unpackStep_nonEOD N s v (h v (by simp)),
      ih (fun p hp => h p (by simp [hp]))]
    simp

/-- Processing one full segment from a state whose current-sequence start
pointer sits just before the arena cursor: append the residues, store the
length (= the residue count), advance the index, store the next start if it
is in range, and write the separating sentinel. -/
theorem unpackFold_segment (N : ℕ) (sp : List ℕ × ℕ)
    (hbody : ∀ p ∈ sp.1, isEOD p = false) (heod : isEOD sp.2 = true) (s : UState)
    (hlook : dsqLookup s.dsqw s.i = s.arena.length - 1) (hpos : 1 ≤ s.arena.length) :
    (segPackets sp).foldl (unpackStep N) s =
      { arena := s.arena ++ segResidues sp ++ [eslDSQ_SENTINEL],
        i := s.i + 1,
        Lw := s.Lw ++ [(s.i, ((segResidues sp).length : ℤ))],
        dsqw := if s.i + 1 < N then
            s.dsqw ++ [(s.i + 1, s.arena.length + (segResidues sp).length)]
          else s.dsqw } := by
  rw [segPackets, List.foldl_append, unpackFold_nonEOD N sp.1 hbody s, List.foldl_cons,
    List.foldl_nil, unpackStep_EOD N _ _ heod]
  simp only [List.append_assoc]
  rw [show (sp.1.map packetResidues).flatten ++ packetResidues sp.2 = segResidues sp from
    (segResidues_eq sp).symm]
  apply UState.ext
  · rw [finalizeSeq_arena]
    dsimp only
    rw [List.append_assoc]
  · rw [finalizeSeq_i]
  · rw [finalizeSeq_Lw]
    dsimp only
    congr 2
    simp only [Prod.mk.injEq, true_and]
    rw [hlook, List.length_append]
    omega
  · rw [finalizeSeq_dsqw]
    dsimp only
    rw [List.length_append]

/-- Folding the unpack step over a list of well-formed segments, starting at
sequence index `done`. -/
theorem unpackFold_segs (N : ℕ) :
    ∀ (segs : List (List ℕ × ℕ)) (s : UState) (done : ℕ),
      (∀ sp ∈ segs, (∀ p ∈ sp.1, isEOD p = false) ∧ isEOD sp.2 = true) →
      s.i = done → done + segs.length ≤ N →
      dsqLookup s.dsqw done = s.arena.length - 1 → 1 ≤ s.arena.length →
      ((segs.map segPackets).flatten).foldl (unpackStep N) s =
        { arena := s.arena ++ arenaSpec segs,
          i := done + segs.length,
          Lw := s.Lw ++ LwSpec done segs,
          dsqw := s.dsqw ++ dsqwSpec N done s.arena.length segs } := by
  intro segs
  induction segs with
  | nil =>
    intro s done _ hi _ _ _
    apply UState.ext <;> simp [arenaSpec, LwSpec, dsqwSpec, hi]
  | cons sp rest ih =>
    intro s done hwf hi hle hlook hpos
    rw [List.map_cons, List.flatten_cons, List.foldl_append]
    have hsp := hwf sp (by simp)
    have hstep := unpackFold_segment N sp hsp.1 hsp.2 s (by rw [hi]; exact hlook) hpos
    rw [hi] at hstep
    rw [hstep]
    rcases rest with _ | ⟨sp2, rest'⟩
    · -- final segment: nothing else to fold
      simp only [List.map_nil, List.flatten_nil, List.foldl_nil]
      apply UState.ext
      · simp [arenaSpec]
      · simp
      · simp [LwSpec]
      · simp only [dsqwSpec, List.append_nil]
        by_cases hin : done + 1 < N
        · rw [if_pos hin, if_pos hin]
        · rw [if_neg hin, if_neg hin]
          simp
    · -- more segments follow: the next start pointer was recorded
      have hin : done + 1 < N := by
        simp only [List.length_cons] at hle
        omega
      rw [if_pos hin]
      have hrec := ih ⟨s.arena ++ segResidues sp ++ [eslDSQ_SENTINEL], done + 1,
          s.Lw ++ [(done, ((segResidues sp).length : ℤ))],
          s.dsqw ++ [(done + 1, s.arena.length + (segResidues sp).length)]⟩
        (done + 1) (fun q hq => hwf q (by simp [hq])) rfl
        (by simp only [List.length_cons] at hle ⊢; omega)
        (by
          show dsqLookup (s.dsqw ++ [(done + 1, s.arena.length + (segResidues sp).length)])
            (done + 1) = (s.arena ++ segResidues sp ++ [eslDSQ_SENTINEL]).length - 1
          rw [dsqLookup_append_last]
          simp [List.length_append])
        (by simp [List.length_append] <;> omega)
      rw [hrec]
      apply UState.ext
      · simp [arenaSpec, List.append_assoc]
      · simp only [List.length_cons]
        omega
      · simp [LwSpec, List.append_assoc]
      · simp only [dsqwSpec]
        rw [if_pos hin]
        simp [List.length_append, List.append_assoc, Nat.add_assoc]

/-- **C9 (amended).** Layout of a successfully unpacked chunk whose packet
stream is `N` well-formed segments (each: non-EOD packets then one EOD
packet).  The arena is the leading sentinel followed by each sequence's
residues and a terminating sentinel (reused as the next sequence's leading
sentinel); `L[i]` is stored once per sequence and equals the residue count,
which is `(arena cursor at finalize) − (recorded start) − 1`; and each
recorded start pointer `dsq[i]` is the arena offset *of the leading
sentinel itself* (offset 0 for sequence 0, and `A + len` for a successor,
the position of the sentinel that separates the sequences) — **not** offset
1 past it, as the claim words state. -/
theorem unpack_layout (N : ℕ) (segs : List (List ℕ × ℕ))
    (hwf : ∀ sp ∈ segs, (∀ p ∈ sp.1, isEOD p = false) ∧ isEOD sp.2 = true)
    (hN : segs.length = N) :
    unpackSeqs N ((segs.map segPackets).flatten) =
      { arena := eslDSQ_SENTINEL :: arenaSpec segs,
        i := N,
        Lw := LwSpec 0 segs,
        dsqw := (0, 0) :: dsqwSpec N 0 1 segs } := by
  rw [unpackSeqs, unpackFold_segs N segs unpackInit 0 hwf rfl (by omega) (by rfl)
    (by simp [unpackInit])]
  apply UState.ext <;> simp [unpackInit, hN]

/-- Witness: `unpack_layout` on a one-sequence chunk whose single packet is
the 5-bit EOD packet carrying the lone residue 5. -/
theorem unpack_layout_witness :
    unpackSeqs 1 (([(([] : List ℕ), 3422552063)].map segPackets).flatten) =
      { arena := eslDSQ_SENTINEL :: arenaSpec [([], 3422552063)],
        i := 1,
        Lw := LwSpec 0 [([], 3422552063)],
        dsqw := (0, 0) :: dsqwSpec 1 0 1 [([], 3422552063)] } :=
  unpack_layout 1 [([], 3422552063)] (by decide) (by decide)

/-- **C9, counterexample to the claim as stated.** For the one-sequence
chunk above, the recorded start pointer `dsq[0]` is arena offset 0 — the
position of the leading sentinel — while the residues begin at offset 1:
the claim's "recorded at offset 1, just past the leading sentinel" is false
of the code. -/
theorem unpack_dsq_offset_counterexample :
    (unpackSeqs 1 [3422552063]).dsqw = [(0, 0)] ∧
    (unpackSeqs 1 [3422552063]).arena = [127, 5, 127] ∧ (0 : ℕ) ≠ 1 :=
  ⟨by decide, by decide, by decide⟩

/-- **C10, counterexample to the claim as stated.** A chunk with `N = 1`
whose stream carries two EOD packets stores into `chu->L` at index 1 — out
of the `i < N` range the claim asserts. -/
theorem unpack_L_write_counterexample :
    ((unpackSeqs 1 [3221225472, 3221225472]).Lw.map Prod.fst) = [0, 1] ∧ ¬ (1 < 1) :=
  ⟨by decide, by decide⟩

/-- **C1 (the code bug, evaluated at the failing input).** A zero-length
protein sequence packs into *zero* packets (`plen = 0`, as `dsqdata_pack5`'s
own comment admits), so the packet stream of a chunk holding exactly that
sequence contains no EOD packet: unpacking it with `N = 1` finalizes zero
sequences — `i = 0 ≠ N`, violating the unpack routine's own
`ESL_DASSERT1((i == chu->N))` — and `L[0]` is never stored, so the
round-trip the claim asserts (including scenario S4 of the spec, which
requires one EOD packet and `L[0] = 0`) does not happen. -/
theorem pack5_empty_sequence_bug :
    dsqdata_pack5 (fun _ => 0) 0 = [] ∧
    (unpackSeqs 1 (dsqdata_pack5 (fun _ => 0) 0)).i = 0 ∧
    (unpackSeqs 1 (dsqdata_pack5 (fun _ => 0) 0)).Lw = [] ∧
    (1 : ℕ) ≠ 0 :=
  ⟨by decide, by decide, by decide, by decide⟩

/-! ### C4: the in-place unpack never overtakes the packet read cursor -/

theorem unpackStep_arena_length (N : ℕ) (s : UState) (v : ℕ) :
    (unpackStep N s v).arena.length =
      s.arena.length + (packetResidues v).length + (if isEOD v then 1 else 0) := by
  by_cases h : isEOD v = true
  · rw [unpackStep_EOD N s v h, finalizeSeq_arena]
    dsimp only
    simp [h, List.length_append]
    omega
  · rw [unpackStep_nonEOD N s v (by simpa using h)]
    dsimp only
    simp only [h, if_false]
    simp [List.length_append]

theorem eodRes5_length_le (v : ℕ) : (eodRes5 v).length ≤ 6 := by
  rw [eodRes5, slots5]
  simp only [List.takeWhile_cons]
  split_ifs <;> simp

set_option maxRecDepth 4000 in
theorem packetResidues_length_le15 (v : ℕ) : (packetResidues v).length ≤ 15 := by
  rw [packetResidues]
  split
  · simp [res2]
  · simp [slots5]
  · simp [res2]
  · exact le_trans (eodRes5_length_le v) (by norm_num)
  · simp

set_option maxRecDepth 4000 in
theorem packetResidues_length_le6_of_5bit (v : ℕ) (h : v.testBit 30 = true) :
    (packetResidues v).length ≤ 6 := by
  rw [Nat.testBit_to_div_mod, decide_eq_true_eq] at h
  have h30 : v >>> 30 = v / 2 ^ 30 := Nat.shiftRight_eq_div_pow v 30
  rw [packetResidues]
  split
  · rename_i heq
    rw [h30] at heq
    omega
  · simp [slots5]
  · rename_i heq
    rw [h30] at heq
    omega
  · exact eodRes5_length_le v
  · simp

/-- Arena growth bound: each packet writes at most `rpp` residues plus (for
EOD packets) one sentinel. -/
theorem unpackFold_arena_le (N rpp : ℕ) :
    ∀ (l : List ℕ) (s : UState), (∀ p ∈ l, (packetResidues p).length ≤ rpp) →
      (l.foldl (unpackStep N) s).arena.length ≤
        s.arena.length + rpp * l.length + l.countP isEOD := by
  intro l
  induction l with
  | nil => intro s _; simp
  | cons v ps ih =>
    intro s hres
    rw [List.foldl_cons]
    have hstep := unpackStep_arena_length N s v
    have htail := ih (unpackStep N s v) (fun p hp => hres p (by simp [hp]))
    have hhead := hres v (by simp)
    rw [List.countP_cons, List.length_cons, Nat.mul_succ]
    by_cases h : isEOD v = true <;> simp only [h, if_true, if_false] at hstep ⊢ <;> omega

theorem countP_take_le (p : ℕ → Bool) (l : List ℕ) (k : ℕ) :
    (l.take k).countP p ≤ l.countP p := by
  conv_rhs => rw [← List.take_append_drop k l]
  rw [List.countP_append]
  omega

/-- **C4.** In-place unpack safety.  For a chunk with `pn ≤ MAXPACKET`
packets, `N ≤ MAXSEQ` sequences and exactly `N` EOD packets, in an arena of
`U = rpp·MAXPACKET + MAXSEQ + 1` bytes whose last `4·MAXPACKET` bytes hold
the packets (packet `pos` at byte offset `U − 4·MAXPACKET + 4·pos`): when
packet `pos` is picked up, the write cursor (`arena.length` after the first
`pos` packets) has not reached that packet's bytes, and the final write
cursor never exceeds `U`.  `rpp` is 15 for a nucleotide chunk; a protein
chunk (`rpp = 6`) contains only 5-bit packets (bit 30 set). -/
theorem unpack_inplace_no_collision (rpp MAXPACKET MAXSEQ N : ℕ) (psq : List ℕ) (pos : ℕ)
    (hpn : psq.length ≤ MAXPACKET) (hN : N ≤ MAXSEQ) (heod : eodCount psq = N)
    (hmode : rpp = 15 ∨ (rpp = 6 ∧ ∀ p ∈ psq, p.testBit 30 = true))
    (hpos : pos < psq.length) :
    ((psq.take pos).foldl (unpackStep N) unpackInit).arena.length ≤
      rpp * MAXPACKET + MAXSEQ + 1 - 4 * MAXPACKET + 4 * pos ∧
    (unpackSeqs N psq).arena.length ≤ rpp * MAXPACKET + MAXSEQ + 1 := by
  have hres : ∀ p ∈ psq, (packetResidues p).length ≤ rpp := by
    rcases hmode with h | ⟨h6, hbit⟩
    · intro p _
      rw [h]
      exact packetResidues_length_le15 p
    · intro p hp
      rw [h6]
      exact packetResidues_length_le6_of_5bit p (hbit p hp)
  constructor
  · have hb := unpackFold_arena_le N rpp (psq.take pos) unpackInit
      (fun p hp => hres p (List.mem_of_mem_take hp))
    have hcount : (psq.take pos).countP isEOD ≤ N := by
      rw [← heod, eodCount]
      exact countP_take_le isEOD psq pos
    have hlen : (psq.take pos).length = pos := by
      rw [List.length_take]
      omega
    rw [hlen] at hb
    have hinit : unpackInit.arena.length = 1 := rfl
    rw [hinit] at hb
    rcases hmode with h | ⟨h6, _⟩ <;> subst rpp <;> omega
  · have hb := unpackFold_arena_le N rpp psq unpackInit hres
    have hcount : psq.countP isEOD = N := heod
    have hinit : unpackInit.arena.length = 1 := rfl
    rw [hinit, hcount] at hb
    rw [unpackSeqs]
    rcases hmode with h | ⟨h6, _⟩ <;> subst rpp <;> omega

/-- Witness: `unpack_inplace_no_collision` for a one-packet protein chunk
with `MAXPACKET = MAXSEQ = 1`. -/
theorem unpack_inplace_no_collision_witness :
    ((([3422552063].take 0).foldl (unpackStep 1) unpackInit).arena.length ≤
      6 * 1 + 1 + 1 - 4 * 1 + 4 * 0 ∧
    (unpackSeqs 1 [3422552063]).arena.length ≤ 6 * 1 + 1 + 1) :=
  unpack_inplace_no_collision 6 1 1 1 [3422552063] 0 (by decide) (by decide) (by decide)
    (Or.inr ⟨rfl, by decide⟩) (by decide)

/-! ### C5: the loader's boundary computation -/

/-- Correctness of the loader's binary search, by induction on the gap:
given a fitting left bound and a non-fitting right bound, it returns the
fitting index just below the first non-fitting one. -/
theorem nload_bsearch_correct (e : ℕ → ℤ) (psq_last maxp : ℤ) :
    ∀ fuel nload righti, righti - nload ≤ fuel →
      e (nload - 1) - psq_last ≤ maxp → ¬ (e (righti - 1) - psq_last ≤ maxp) →
      nload < righti →
      (e (nload_bsearch e psq_last maxp fuel nload righti - 1) - psq_last ≤ maxp) ∧
      nload ≤ nload_bsearch e psq_last maxp fuel nload righti ∧
      nload_bsearch e psq_last maxp fuel nload righti < righti ∧
      ¬ (e (nload_bsearch e psq_last maxp fuel nload righti + 1 - 1) - psq_last ≤ maxp) := by
  intro fuel
  induction fuel with
  | zero =>
    intro nload righti hfuel hlo hhi hlt
    have hr : righti = nload + 1 := by omega
    have hval : nload_bsearch e psq_last maxp 0 nload righti = nload := rfl
    rw [hval]
    refine ⟨hlo, Nat.le_refl _, by omega, ?_⟩
    rw [show nload + 1 - 1 = righti - 1 by omega]
    exact hhi
  | succ fuel ih =>
    intro nload righti hfuel hlo hhi hlt
    by_cases hgap : 1 < righti - nload
    · have hmid1 : nload < nload + (righti - nload) / 2 := by omega
      have hmid2 : nload + (righti - nload) / 2 < righti := by omega
      by_cases hfit : e (nload + (righti - nload) / 2 - 1) - psq_last ≤ maxp
      · have hval : nload_bsearch e psq_last maxp (fuel + 1) nload righti =
            nload_bsearch e psq_last maxp fuel (nload + (righti - nload) / 2) righti := by
          simp [nload_bsearch, hgap, hfit]
        rw [hval]
        have hrec := ih (nload + (righti - nload) / 2) righti (by omega) hfit hhi (by omega)
        exact ⟨hrec.1, by omega, hrec.2.2.1, hrec.2.2.2⟩
      · have hval : nload_bsearch e psq_last maxp (fuel + 1) nload righti =
            nload_bsearch e psq_last maxp fuel nload (nload + (righti - nload) / 2) := by
          simp [nload_bsearch, hgap, hfit]
        rw [hval]
        have hrec := ih nload (nload + (righti - nload) / 2) (by omega) hlo hfit (by omega)
        exact ⟨hrec.1, hrec.2.1, by omega, hrec.2.2.2⟩
    · have hr : righti = nload + 1 := by omega
      have hval : nload_bsearch e psq_last maxp (fuel + 1) nload righti = nload := by
        simp [nload_bsearch, hgap]
      rw [hval]
      refine ⟨hlo, Nat.le_refl _, by omega, ?_⟩
      rw [show nload + 1 - 1 = righti - 1 by omega]
      exact hhi

/-- **C5.** The loader's boundary computation.  With `nidx ≥ 1` staged
records whose `psq_end` offsets are nondecreasing and the asserted
precondition that the first record fits, `nload_compute` — take everything
when the last record fits, else binary-search — returns the largest
`i ∈ 1..nidx` with `idx[i−1].psq_end − psq_last ≤ MAXPACKET`; consequently
the emitted chunk has `pn = idx[nload−1].psq_end − psq_last ≤ MAXPACKET`
and `N = nload ≤ nidx ≤ MAXSEQ`. -/
theorem loader_nload_correct (e : ℕ → ℤ) (nidx MAXSEQ : ℕ) (psq_last maxp : ℤ)
    (h1 : 1 ≤ nidx) (hms : nidx ≤ MAXSEQ)
    (hmono : ∀ i j, i ≤ j → j < nidx → e i ≤ e j)
    (hfirst : e 0 - psq_last ≤ maxp) :
    1 ≤ nload_compute e nidx psq_last maxp ∧
    nload_compute e nidx psq_last maxp ≤ nidx ∧
    e (nload_compute e nidx psq_last maxp - 1) - psq_last ≤ maxp ∧
    (∀ i, nload_compute e nidx psq_last maxp < i → i ≤ nidx →
      ¬ (e (i - 1) - psq_last ≤ maxp)) ∧
    nload_compute e nidx psq_last maxp ≤ MAXSEQ := by
  by_cases hall : e (nidx - 1) - psq_last ≤ maxp
  · have hval : nload_compute e nidx psq_last maxp = nidx := by
      simp [nload_compute, hall]
    rw [hval]
    exact ⟨h1, Nat.le_refl _, hall, fun i hi1 hi2 => by omega, hms⟩
  · have hval : nload_compute e nidx psq_last maxp =
        nload_bsearch e psq_last maxp nidx 1 nidx := by
      simp [nload_compute, hall]
    have hlt : 1 < nidx := by
      rcases Nat.eq_or_lt_of_le h1 with h | h
      · exfalso
        rw [← h] at hall
        exact hall hfirst
      · exact h
    have hrec := nload_bsearch_correct e psq_last maxp nidx 1 nidx (by omega)
      (by simpa using hfirst) hall hlt
    rw [hval]
    refine ⟨hrec.2.1, by omega, hrec.1, ?_, by omega⟩
    intro i hi1 hi2
    intro hfit
    apply hrec.2.2.2
    calc e (nload_bsearch e psq_last maxp nidx 1 nidx + 1 - 1) - psq_last
        ≤ e (i - 1) - psq_last := by
          have := hmono (nload_bsearch e psq_last maxp nidx 1 nidx + 1 - 1) (i - 1)
            (by omega) (by omega)
          omega
    _ ≤ maxp := hfit

/-- Witness: `loader_nload_correct` on four staged records with
`psq_end = 10·i + 10`, `psq_last = −1`, `MAXPACKET = 26`: records 1 and 2
fit (offsets 11 and 21 past `psq_last`), record 3 does not (31), so
`nload = 2`. -/
theorem loader_nload_correct_witness :
    1 ≤ nload_compute (fun i => 10 * (i : ℤ) + 10) 4 (-1) 26 ∧
    nload_compute (fun i => 10 * (i : ℤ) + 10) 4 (-1) 26 ≤ 4 ∧
    10 * ((nload_compute (fun i => 10 * (i : ℤ) + 10) 4 (-1) 26 - 1 : ℕ) : ℤ) + 10 - (-1) ≤ 26 ∧
    nload_compute (fun i => 10 * (i : ℤ) + 10) 4 (-1) 26 ≤ 5 := by
  obtain ⟨h1, h2, h3, _, h5⟩ := loader_nload_correct (fun i => 10 * (i : ℤ) + 10) 4 5 (-1) 26
    (by norm_num) (by norm_num) (fun i j hij _ => by push_cast; omega) (by norm_num)
  exact ⟨h1, h2, h3, h5⟩

/-! ### C6: the metadata walk checks the allocation size, not the loaded size -/

/-- **C6 (amended).** Every bound check of the metadata walk compares the
cursor against `mdalloc`, the *allocated* buffer size: when the walk
succeeds, each recorded name/accession/description pointer lies below
`mdalloc`.  The number of bytes actually loaded for the chunk (`nmeta`) is
not stored in the chunk and never consulted, so positions past the loaded
region but inside the allocation are read and returned without error (see
the counterexample below). -/
theorem metaWalk_bounds_mdalloc (mem : List ℕ) (mdalloc : ℕ) :
    ∀ count ptr recs, metaWalk mem mdalloc count ptr = .ok recs →
      ∀ q ∈ recs, q.nameOff < mdalloc ∧ q.accOff < mdalloc ∧ q.descOff < mdalloc := by
  intro count
  induction count with
  | zero =>
    intro ptr recs h q hq
    rw [metaWalk] at h
    simp only [Except.ok.injEq] at h
    rw [← h] at hq
    simp at hq
  | succ count ih =>
    intro ptr recs h q hq
    by_cases h0 : mdalloc ≤ ptr
    · rw [metaWalk] at h
      simp [h0] at h
    · by_cases hc1 : mdalloc ≤ strchr0 mem ptr + 1
      · rw [metaWalk] at h
        simp [h0, hc1] at h
      · by_cases hc2 : mdalloc ≤ strchr0 mem (strchr0 mem ptr + 1) + 1
        · rw [metaWalk] at h
          simp [h0, hc1, hc2] at h
        · by_cases hc3 : mdalloc ≤ strchr0 mem (strchr0 mem (strchr0 mem ptr + 1) + 1) + 1
          · rw [metaWalk] at h
            simp [h0, hc1, hc2, hc3] at h
          · rw [metaWalk] at h
            simp only [if_neg h0, if_neg hc1, if_neg hc2, if_neg hc3] at h
            cases hrec : metaWalk mem mdalloc count
                (strchr0 mem (strchr0 mem (strchr0 mem ptr + 1) + 1) + 1 + 4) with
            | error e =>
              rw [hrec] at h
              simp at h
            | ok rest =>
              rw [hrec] at h
              simp only [Except.ok.injEq] at h
              rw [← h] at hq
              rcases List.mem_cons.mp hq with hh | hh
              · rw [hh]
                exact ⟨by dsimp only; omega, by dsimp only; omega, by dsimp only; omega⟩
              · exact ih _ rest hrec q hh

/-- Witness: `metaWalk_bounds_mdalloc` on a 7-byte buffer holding one
record of empty strings. -/
theorem metaWalk_bounds_mdalloc_witness :
    (⟨0, 1, 2, 0⟩ : MetaRec).nameOff < 7 ∧ (⟨0, 1, 2, 0⟩ : MetaRec).accOff < 7 ∧
    (⟨0, 1, 2, 0⟩ : MetaRec).descOff < 7 :=
  metaWalk_bounds_mdalloc (List.replicate 7 0) 7 1 0 [⟨0, 1, 2, 0⟩] (by rfl)
    ⟨0, 1, 2, 0⟩ (by simp)

/-- **C6, counterexample to the claim as stated.** The loader read only
`nmeta = 2` metadata bytes (`"A\0"`) for this chunk; the remaining 18 bytes
of the allocation are stale.  The walk runs past the end of the loaded
region — recording the accession pointer at offset 2 and the description
pointer at offset 3, and reading a taxid from offsets 4..7, all `≥ nmeta` —
and succeeds, instead of failing with a format error as the claim
states. -/
theorem metaWalk_loaded_region_counterexample :
    metaWalk (65 :: List.replicate 19 0) 20 1 0 = .ok [⟨0, 2, 3, 0⟩] ∧ ¬ (2 < 2) :=
  ⟨by rfl, by decide⟩

/-! ### C8: EOF latching in `esl_dsqdata_Read` -/

theorem dsqdata_read_at_eof (s : RState) (h : s.at_eof = true) :
    dsqdata_read s = some (s, none) := by
  simp [dsqdata_read, h]

/-- Once the EOF flag is latched, every event preserves it and every read
returns EOF with no chunk. -/
theorem runPipe_at_eof (evs : List PipeEvent) :
    ∀ s sf rds, s.at_eof = true → runPipe s evs = some (sf, rds) →
      (∀ p ∈ rds, p.1.at_eof = true ∧ p.2 = none) ∧ sf.at_eof = true := by
  induction evs with
  | nil =>
    intro s sf rds hs h
    rw [runPipe] at h
    simp only [Option.some.injEq, Prod.mk.injEq] at h
    rw [← h.2]
    exact ⟨by simp, by rw [← h.1]; exact hs⟩
  | cons ev evs ih =>
    intro s sf rds hs h
    cases ev with
    | deposit c =>
      rw [runPipe] at h
      by_cases hd : s.outbox = none
      · rw [outboxDeposit, if_pos hd] at h
        dsimp only at h
        exact ih { s with outbox := some c } sf rds hs h
      · rw [outboxDeposit, if_neg hd] at h
        simp at h
    | read =>
      rw [runPipe, dsqdata_read_at_eof s hs] at h
      dsimp only at h
      cases hrec : runPipe s evs with
      | none =>
        rw [hrec] at h
        simp at h
      | some out =>
        obtain ⟨s1, rds1⟩ := out
        rw [hrec] at h
        dsimp only at h
        simp only [Option.some.injEq, Prod.mk.injEq] at h
        obtain ⟨hsf, hrds⟩ := h
        have htail := ih s s1 rds1 hs hrec
        rw [← hrds]
        refine ⟨?_, by rw [← hsf]; exact htail.2⟩
        intro p hp
        rcases List.mem_cons.mp hp with hh | hh
        · rw [hh]
          exact ⟨hs, rfl⟩
        · exact htail.1 p hh

theorem pairwise_of_forall_mem {α : Type} (R : α → α → Prop) (l : List α)
    (h : ∀ q ∈ l, ∀ p, R p q) : l.Pairwise R := by
  induction l with
  | nil => exact List.Pairwise.nil
  | cons a l ih =>
    refine List.Pairwise.cons ?_ (ih (fun q hq p => h q (by simp [hq]) p))
    intro b hb
    exact h b (by simp [hb]) a

/-- **C8.** EOF latching.  Over any sequence of unpacker deposits and
completed consumer reads from a handle whose EOF flag is not yet latched:
at most one read ever takes the `N = 0` chunk from the outbox; that read
returns EOF with a NULL chunk (and, by the one-step evaluation in the
fourth conjunct, latches the flag and pushes the chunk onto the recycling
stack, so the EOF chunk is never returned to a caller); every read that
finds the flag latched returns EOF immediately, leaving the state — outbox
included — untouched; and once any read in the trace observes the latched
flag, so do all later reads, so no read ever returns a chunk after EOF. -/
theorem read_eof_latch (evs : List PipeEvent) :
    ∀ s0 sf rds, s0.at_eof = false → runPipe s0 evs = some (sf, rds) →
      (rds.countP (fun p => takesEofChunk p.1) ≤ 1) ∧
      (∀ p ∈ rds, takesEofChunk p.1 = true → p.2 = none) ∧
      (∀ p ∈ rds, p.1.at_eof = true → p.2 = none ∧ dsqdata_read p.1 = some (p.1, none)) ∧
      (∀ s : RState, ∀ c : Chunk, s.at_eof = false → s.outbox = some c → c.N = 0 →
        dsqdata_read s = some (⟨true, none, c :: s.recycling⟩, none)) ∧
      List.Pairwise (fun p q => p.1.at_eof = true → q.1.at_eof = true) rds := by
  have hstep : ∀ s : RState, ∀ c : Chunk, s.at_eof = false → s.outbox = some c → c.N = 0 →
      dsqdata_read s = some (⟨true, none, c :: s.recycling⟩, none) := by
    intro s c hs ho hn
    simp [dsqdata_read, hs, ho, hn]
  induction evs with
  | nil =>
    intro s0 sf rds hs h
    rw [runPipe] at h
    simp only [Option.some.injEq, Prod.mk.injEq] at h
    rw [← h.2]
    exact ⟨by simp, by simp, by simp, hstep, List.Pairwise.nil⟩
  | cons ev evs ih =>
    intro s0 sf rds hs h
    cases ev with
    | deposit c =>
      rw [runPipe] at h
      by_cases hd : s0.outbox = none
      · rw [outboxDeposit, if_pos hd] at h
        dsimp only at h
        exact ih { s0 with outbox := some c } sf rds hs h
      · rw [outboxDeposit, if_neg hd] at h
        simp at h
    | read =>
      rw [runPipe] at h
      rw [show dsqdata_read s0 = (match s0.outbox with
        | none => none
        | some chu => if chu.N = 0 then
            some (⟨true, none, chu :: s0.recycling⟩, none)
          else some ({ s0 with outbox := none }, some chu)) from by
        simp [dsqdata_read, hs]] at h
      cases ho : s0.outbox with
      | none =>
        rw [ho] at h
        simp at h
      | some chu =>
        rw [ho] at h
        dsimp only at h
        by_cases hn : chu.N = 0
        · rw [if_pos hn] at h
          dsimp only at h
          cases hrec : runPipe ⟨true, none, chu :: s0.recycling⟩ evs with
          | none =>
            rw [hrec] at h
            simp at h
          | some out =>
            obtain ⟨s1, rds1⟩ := out
            rw [hrec] at h
            dsimp only at h
            simp only [Option.some.injEq, Prod.mk.injEq] at h
            obtain ⟨hsf, hrds⟩ := h
            have htail := runPipe_at_eof evs _ s1 rds1 rfl hrec
            rw [← hrds]
            have htk : takesEofChunk s0 = true := by
              simp [takesEofChunk, hs, ho, hn]
            have htailtk : ∀ p ∈ rds1, takesEofChunk p.1 = false := by
              intro p hp
              have := (htail.1 p hp).1
              simp [takesEofChunk, this]
            refine ⟨?_, ?_, ?_, hstep, ?_⟩
            · rw [List.countP_cons]
              have hz : rds1.countP (fun p => takesEofChunk p.1) = 0 := by
                rw [List.countP_eq_zero]
                intro p hp
                simp [htailtk p hp]
              simp [hz, htk]
            · intro p hp _
              rcases List.mem_cons.mp hp with hh | hh
              · rw [hh]
              · exact (htail.1 p hh).2
            · intro p hp hpe
              rcases List.mem_cons.mp hp with hh | hh
              · rw [hh] at hpe ⊢
                exact ⟨rfl, dsqdata_read_at_eof s0 hpe⟩
              · exact ⟨(htail.1 p hh).2, dsqdata_read_at_eof p.1 hpe⟩
            · refine List.Pairwise.cons ?_ ?_
              · intro q hq _
                exact (htail.1 q hq).1
              · exact pairwise_of_forall_mem _ rds1
                  (fun q hq p _ => (htail.1 q hq).1)
        · rw [if_neg hn] at h
          dsimp only at h
          cases hrec : runPipe { s0 with outbox := none } evs with
          | none =>
            rw [hrec] at h
            simp at h
          | some out =>
            obtain ⟨s1, rds1⟩ := out
            rw [hrec] at h
            dsimp only at h
            simp only [Option.some.injEq, Prod.mk.injEq] at h
            obtain ⟨hsf, hrds⟩ := h
            have htail := ih { s0 with outbox := none } s1 rds1 hs hrec
            rw [← hrds]
            have htk : takesEofChunk s0 = false := by
              simp [takesEofChunk, hs, ho, hn]
            refine ⟨?_, ?_, ?_, hstep, ?_⟩
            · simp [htk]
              have := htail.1
              omega
            · intro p hp hptk
              rcases List.mem_cons.mp hp with hh | hh
              · rw [hh] at hptk
                rw [htk] at hptk
                exact absurd hptk (by simp)
              · exact htail.2.1 p hh hptk
            · intro p hp hpe
              rcases List.mem_cons.mp hp with hh | hh
              · rw [hh] at hpe
                rw [hs] at hpe
                exact absurd hpe (by simp)
              · exact htail.2.2.1 p hh hpe
            · refine List.Pairwise.cons ?_ htail.2.2.2.2
              intro q hq heq
              rw [hs] at heq
              exact absurd heq (by simp)

/-- Witness: `read_eof_latch` on the trace "deposit the EOF chunk; read;
read": the first read takes the EOF chunk, the second finds the latched
flag. -/
theorem read_eof_latch_witness :
    ([((⟨false, some ⟨0, [], [], 0⟩, []⟩ : RState), (none : Option Chunk)),
      ((⟨true, none, [⟨0, [], [], 0⟩]⟩ : RState), none)].countP
        (fun p => takesEofChunk p.1)) ≤ 1 := by
  obtain ⟨h1, _, _, _, _⟩ := read_eof_latch
    [PipeEvent.deposit ⟨0, [], [], 0⟩, PipeEvent.read, PipeEvent.read]
    ⟨false, none, []⟩ ⟨true, none, [⟨0, [], [], 0⟩]⟩
    [((⟨false, some ⟨0, [], [], 0⟩, []⟩ : RState), (none : Option Chunk)),
      ((⟨true, none, [⟨0, [], [], 0⟩]⟩ : RState), none)]
    (by rfl) (by rfl)
  exact h1

end Dsqdata
